import Mathlib

/-!
Verification of the `toqito` snapshot: the two-subsystem `swap` routine
(`toqito/perms/swap.py`), the positive-semidefiniteness check
(`toqito/matrix/properties/is_psd.py`) and the Pusey-Barret-Rudolph state
constructor (`toqito/states/pusey_barret_rudolph.py`), shallowly embedded in
Lean 4.

Conventions of the embedding:
* a numpy operand is a function `Nat → Nat → α` together with its shape
  (`Shape.vec L` for a 1-D array, `Shape.mat r c` for a 2-D array);
* python exceptions become `Except SwapError`; the two distinct `ValueError`
  messages of `swap.py` ("InvalidDim", "InvalidSys") become the constructors
  `SwapError.invalidDim` and `SwapError.invalidSys`; the validation failures
  of the general permutation engine become `SwapError.dimMismatch`
  (spec: `DimensionError`/`InvalidDimensionError`) and
  `SwapError.invalidPerm` (spec: `InvalidPermutationError`), while python's
  `ZeroDivisionError` on an integer `dim = 0` becomes `SwapError.zeroDiv`;
* machine floats that only ever hold exact small values are modelled as `ℚ`,
  with `np.finfo(float).eps = 2⁻⁵²` kept explicit.
-/

/-- Error kinds surfaced by the permutation routines.  `zeroDiv` models
python's `ZeroDivisionError` from `rho_dims[0]/dim` when the integer `dim`
is 0, which escapes before any of `swap`'s own checks. -/
inductive SwapError where
  | invalidDim
  | invalidSys
  | invalidPerm
  | dimMismatch
  | zeroDiv
deriving DecidableEq, Repr

/-- The shape of a numpy operand: 1-D (`vec L`) or 2-D (`mat r c`). -/
inductive Shape where
  | vec (L : Nat)
  | mat (r c : Nat)
deriving DecidableEq, Repr

/-- `rho_dims` as computed at the top of `swap`: a 1-D operand of length `L`
is treated as shape `(1, L)`. -/
def rhoDims : Shape → Nat × Nat
  | .vec L => (1, L)
  | .mat r c => (r, c)

/-- The `dim` argument of `swap`: omitted, a single integer, a flat list
(one dimension per subsystem), or a 2-row table (row dims / column dims). -/
inductive DimArg where
  | noDim
  | intDim (d : Nat)
  | listDim (l : List Nat)
  | tableDim (rd cd : List Nat)
deriving DecidableEq, Repr

/-- `np.finfo(float).eps`, exactly. -/
def eps : ℚ := 1 / 2 ^ 52

/-- Floor square root by structural recursion: the largest `s` with
`s * s ≤ n`. -/
def sqrtLin : Nat → Nat
  | 0 => 0
  | n + 1 =>
      let s := sqrtLin n
      if (s + 1) * (s + 1) ≤ n + 1 then s + 1 else s

/-- `np.round (np.sqrt n)` for a natural `n`: the integer nearest to `√n`
(the tie `√n = k + 1/2` is impossible for integer `n`, so the rounding
direction at ties is irrelevant). -/
def roundSqrt (n : Nat) : Nat :=
  let s := sqrtLin n
  if s * s + (s + 1) * (s + 1) ≤ 2 * n then s + 1 else s

/-- Mixed-radix recomposition: digits (most significant first) to a linear
index, radices `dims`. -/
def flatten : List Nat → List Nat → Nat
  | _ :: ds, x :: xs => x * ds.prod + flatten ds xs
  | _, _ => 0

/-- Mixed-radix decomposition of a linear index into digits, most significant
first, radices `dims`. -/
def unflatten : List Nat → Nat → List Nat
  | [], _ => []
  | _ :: ds, i => i / ds.prod :: unflatten ds (i % ds.prod)

/-- Position of subsystem label `s` in the permutation list (python
`list.index`). -/
def digitPos : List Nat → Nat → Nat
  | [], _ => 0
  | p :: ps, s => if p = s then 0 else digitPos ps s + 1

/-- Output slot `j` of the permuted digit vector holds the digit of input
subsystem `perm j`; so input subsystem `s` receives the digit found at the
position of `s` inside `perm`. -/
def gatherDigits (perm : List Nat) (k : Nat) (y : List Nat) : List Nat :=
  (List.range k).map (fun s => y.getD (digitPos perm (s + 1)) 0)

/-- The radices of the permuted digit ordering: slot `j` has the radix of
input subsystem `perm j` (labels are 1-indexed). -/
def permDims (dims perm : List Nat) : List Nat :=
  perm.map (fun p => dims.getD (p - 1) 0)

/-- Row/column lookup table of the permutation engine: decompose an output
index over the permuted radices, route each digit back to its source
subsystem, recompose over the original radices.  `result[i] = input[lookup i]`. -/
def permLookup (dims perm : List Nat) (i : Nat) : Nat :=
  flatten dims (gatherDigits perm dims.length (unflatten (permDims dims perm) i))

/-- A permutation list is valid for `k` subsystems when it has length `k` and
contains every label `1..k` (hence is a bijection). -/
def isValidPerm (perm : List Nat) (k : Nat) : Bool :=
  perm.length == k && (List.range' 1 k).all (fun s => perm.contains s)

/-- Modelled from the spec: the general permutation engine `permute_systems`
(`toqito/perms/permute_systems.py`, whose source is not part of this
snapshot).  Per spec §4.1 it validates that the subsystem dimensions account
exactly for the operand's shape (`DimensionError` on failure), that the
permutation is a bijection on `1..num_subsystems`
(`InvalidPermutationError` on failure), and then gathers rows — and, unless
`row_only`, columns — through the mixed-radix lookup tables of §4.1 step 2. -/
def permute_systems {α : Type} (m : Nat → Nat → α) (shape : Nat × Nat)
    (perm : List Nat) (rd cd : List Nat) (row_only : Bool) :
    Except SwapError (Nat → Nat → α) :=
  if rd.prod ≠ shape.1 ∨ cd.prod ≠ shape.2 then .error .dimMismatch
  else if ¬ (isValidPerm perm rd.length ∧ isValidPerm perm cd.length) then
    .error .invalidPerm
  else
    .ok (fun i j =>
      m (permLookup rd perm i) (if row_only then j else permLookup cd perm j))

/-- The condition of `swap`'s first selector check, exactly as written in the
source: `any(sys) < 1 or any(sys) > num_sys`, where python compares the
*boolean* `any(sys)` (as `0` or `1`) with the integers `1` and `num_sys`. -/
def sysCheckErr (sys : List Int) (num_sys : Nat) : Bool :=
  let b : Int := if sys.any (fun x => x ≠ 0) then 1 else 0
  b < 1 || b > (num_sys : Int)

/-- The permutation `swap` builds and hands to the permutation engine:
`perm = list(range(1, num_sys+1)); perm = perm[::-1]` — the full reversal
`[num_sys, ..., 1]`. -/
def swapPerm (num_sys : Nat) : List Nat :=
  (List.range' 1 num_sys).reverse

/-- Resolution of the `dim` argument of `swap` into row dimensions, column
dimensions and `num_sys`, following the source:
* omitted: `[[√r, √r], [√c, √c]]` with `√` the rounded square root of the
  respective side of `rho_dims`, `num_sys = 2`;
* a single integer `d`: python's division `r/d` raises `ZeroDivisionError`
  when `d = 0`; otherwise `[[d, r/d], [d, c/d]]` after the epsilon-tolerance
  divisibility check (`ValueError` "InvalidDim" when it fails), `num_sys = 2`;
* a flat list: `num_sys` is its length; for a 1-D operand the listed
  dimensions describe the length axis (the engine's vector convention), for a
  2-D operand they are used for rows and columns alike;
* a 2-row table: `num_sys = len(dim) = 2`, faithful to the source's
  `num_sys = len(dim)` on a 2-row array. -/
def swapDims (shape : Shape) (dim : DimArg) :
    Except SwapError (List Nat × List Nat × Nat) :=
  let r := (rhoDims shape).1
  let c := (rhoDims shape).2
  match dim with
  | .noDim =>
      .ok ([roundSqrt r, roundSqrt r], [roundSqrt c, roundSqrt c], 2)
  | .intDim d =>
      if d = 0 then .error .zeroDiv
      else
        let q1 : ℚ := (r : ℚ) / (d : ℚ)
        let q2 : ℚ := (c : ℚ) / (d : ℚ)
        if |q1 - (round q1 : ℤ)| + |q2 - (round q2 : ℤ)| ≥ 2 * ((r * c : Nat) : ℚ) * eps then
          .error .invalidDim
        else
          .ok ([d, (round q1).toNat], [d, (round q2).toNat], 2)
  | .listDim l =>
      match shape with
      | .vec _ => .ok (List.replicate l.length 1, l, l.length)
      | .mat _ _ => .ok (l, l, l.length)
  | .tableDim rd cd => .ok (rd, cd, 2)

/-- `swap(rho, sys, dim, row_only)` from `toqito/perms/swap.py`: resolve the
dimensions, run the two (buggy) selector checks, then call the permutation
engine with the full-reversal permutation. -/
def swap {α : Type} (m : Nat → Nat → α) (shape : Shape) (sys : List Int)
    (dim : DimArg) (row_only : Bool) : Except SwapError (Nat → Nat → α) :=
  match swapDims shape dim with
  | .error e => .error e
  | .ok (rd, cd, num_sys) =>
      if sysCheckErr sys num_sys then .error .invalidSys
      else if sys.length ≠ 2 then .error .invalidSys
      else permute_systems m (rhoDims shape) (swapPerm num_sys) rd cd row_only

/-- Two applications of `swap` with identical arguments, sequenced through
`Except`. -/
def swapTwice {α : Type} (m : Nat → Nat → α) (shape : Shape) (sys : List Int)
    (dim : DimArg) (row_only : Bool) : Except SwapError (Nat → Nat → α) :=
  match swap m shape sys dim row_only with
  | .error e => .error e
  | .ok m1 => swap m1 shape sys dim row_only

/-- `True` exactly on a successful `Except` result. -/
def exceptOk {ε α : Type} : Except ε α → Bool
  | .ok _ => true
  | .error _ => false

/-- Entry `(i, j)` of a successful operand result, or `deflt` on error. -/
def entryOr {α : Type} (e : Except SwapError (Nat → Nat → α)) (deflt : α)
    (i j : Nat) : α :=
  match e with
  | .ok f => f i j
  | .error _ => deflt

/-- A numpy matrix for the property checks: shape plus rational entries
(the concrete matrices of the claims are integer-valued). -/
structure QMat where
  rows : Nat
  cols : Nat
  entry : Nat → Nat → ℚ

/-- Modelled from the spec: `is_square`
(`toqito/matrix/properties/is_square.py`, whose source is not part of this
snapshot) — a matrix is square exactly when its row count equals its column
count (spec §7: non-square inputs to the PSD check are reported `False`). -/
def is_square (m : QMat) : Bool := m.rows == m.cols

/-- Exact rational square root helper: exact whenever numerator and
denominator are perfect squares (which holds for every discriminant the
claims evaluate). -/
def sqrtQ (q : ℚ) : ℚ := (sqrtLin q.num.toNat : ℚ) / (sqrtLin q.den : ℚ)

/-- `np.linalg.eigvalsh`, an out-of-scope external primitive (spec §1),
modelled exactly for the 2×2 symmetric case via the characteristic
polynomial: eigenvalues `((a+c) ∓ √((a-c)² + 4b²)) / 2` in ascending order.
Only the 2×2 case is exercised by the claims. -/
def eigvalsh (m : QMat) : List ℚ :=
  if m.rows = 2 ∧ m.cols = 2 then
    let a := m.entry 0 0
    let b := m.entry 0 1
    let c := m.entry 1 1
    let tr := a + c
    let s := sqrtQ ((a - c) ^ 2 + 4 * b ^ 2)
    [(tr - s) / 2, (tr + s) / 2]
  else []

/-- `is_psd(mat, tol)` from `toqito/matrix/properties/is_psd.py`: `False` for
non-square input, otherwise `np.all(eigvalsh(mat) > -tol)`. -/
def is_psd (m : QMat) (tol : ℚ) : Bool :=
  if ¬ is_square m then false
  else (eigvalsh m).all (fun l => decide (-tol < l))

/-- The matrix `A = [[1, -1], [-1, 1]]` of the PSD boundary claim. -/
def matA : QMat := ⟨2, 2, fun i j => if i = j then 1 else -1⟩

/-- The matrix `B = [[-1, -1], [-1, -1]]` of the PSD boundary claim. -/
def matB : QMat := ⟨2, 2, fun _ _ => -1⟩

/-- Kronecker product of column vectors (vectors as entry lists), an
out-of-scope external primitive per spec §1 (`toqito/matrix_ops/tensor.py`
is not part of this snapshot). -/
def kron {α : Type} [Mul α] (v w : List α) : List α :=
  v.flatMap (fun x => w.map (fun y => x * y))

/-- `tensor` applied to a list of vectors: left-to-right iterated Kronecker
product. -/
def tensorL {α : Type} [Mul α] [One α] : List (List α) → List α
  | [] => [1]
  | v :: vs => vs.foldl kron v

/-- `itertools.product([0, 1], repeat = n)`: all 0/1 strings of length `n`,
first coordinate varying slowest (lexicographic order). -/
def binaryStrings : Nat → List (List Nat)
  | 0 => [[]]
  | n + 1 =>
      (binaryStrings n).map (fun t => 0 :: t) ++
      (binaryStrings n).map (fun t => 1 :: t)

/-- `pusey_barret_rudolph(n, theta)` from
`toqito/states/pusey_barret_rudolph.py`, with `c` and `s` standing for the
real numbers `cos (θ/2)` and `sin (θ/2)`: `ψ₀ = [c, s]`, `ψ₁ = [c, -s]`
(as column vectors over the standard basis of dimension 2), and one state
`ψ_{b₁} ⊗ ⋯ ⊗ ψ_{bₙ}` per binary string `(b₁, …, bₙ)` produced by
`itertools.product`. -/
def pusey_barret_rudolph {α : Type} [Ring α] (n : Nat) (c s : α) :
    List (List α) :=
  (binaryStrings n).map
    (fun bstr => tensorL (bstr.map (fun b => if b = 0 then [c, s] else [c, -s])))

/-- Claim-side definition (spec wording of C10): the `i`-th binary string of
length `n` in lexicographic order, i.e. the big-endian base-2 digits of `i`
(meaningful for `i < 2 ^ n`). -/
def natToBits : Nat → Nat → List Nat
  | 0, _ => []
  | n + 1, i => i / 2 ^ n :: natToBits n (i % 2 ^ n)

/-- Claim-side definition (spec wording of C1): the permutation that swaps
positions `a` and `b` in the identity ordering of `k` slots and fixes every
other slot. -/
def transpositionPerm (a b k : Nat) : List Nat :=
  (List.range' 1 k).map (fun s => if s = a then b else if s = b then a else s)

theorem unflatten_length (dims : List Nat) (i : Nat) :
    (unflatten dims i).length = dims.length := by
  induction dims generalizing i with
  | nil => simp [unflatten]
  | cons d ds ih => simp [unflatten, ih]

theorem flatten_lt {xs dims : List Nat} (h : List.Forall₂ (· < ·) xs dims) :
    flatten dims xs < dims.prod := by
  induction h with
  | nil => simp [flatten]
  | @cons x d xs ds hxd htail ih =>
      have hP : 0 < ds.prod := Nat.pos_of_ne_zero (by omega)
      calc flatten (d :: ds) (x :: xs) = x * ds.prod + flatten ds xs := rfl
        _ < x * ds.prod + ds.prod := by omega
        _ = (x + 1) * ds.prod := by ring
        _ ≤ d * ds.prod := Nat.mul_le_mul_right _ hxd
        _ = (d :: ds).prod := (List.prod_cons).symm

theorem flatten_unflatten (dims : List Nat) (i : Nat) (h : i < dims.prod) :
    flatten dims (unflatten dims i) = i := by
  induction dims generalizing i with
  | nil =>
      simp only [List.prod_nil] at h
      interval_cases i
      rfl
  | cons d ds ih =>
      have hP : 0 < ds.prod := by
        rcases Nat.eq_zero_or_pos ds.prod with h0 | h0
        · exfalso; rw [List.prod_cons, h0, Nat.mul_zero] at h; omega
        · exact h0
      have hmod : i % ds.prod < ds.prod := Nat.mod_lt _ hP
      calc flatten (d :: ds) (unflatten (d :: ds) i)
          = (i / ds.prod) * ds.prod + flatten ds (unflatten ds (i % ds.prod)) := rfl
        _ = (i / ds.prod) * ds.prod + i % ds.prod := by rw [ih _ hmod]
        _ = i := by rw [Nat.mul_comm]; exact Nat.div_add_mod i ds.prod

theorem unflatten_lt (dims : List Nat) (i : Nat) (h : i < dims.prod) :
    List.Forall₂ (· < ·) (unflatten dims i) dims := by
  induction dims generalizing i with
  | nil => exact List.Forall₂.nil
  | cons d ds ih =>
      have hP : 0 < ds.prod := by
        rcases Nat.eq_zero_or_pos ds.prod with h0 | h0
        · exfalso; rw [List.prod_cons, h0, Nat.mul_zero] at h; omega
        · exact h0
      refine List.Forall₂.cons ?_ (ih _ (Nat.mod_lt _ hP))
      have : i < d * ds.prod := by rwa [List.prod_cons] at h
      exact Nat.div_lt_of_lt_mul (by rwa [Nat.mul_comm] at this)

theorem unflatten_flatten {dims xs : List Nat}
    (h : List.Forall₂ (· < ·) xs dims) :
    unflatten dims (flatten dims xs) = xs := by
  induction h with
  | nil => rfl
  | @cons x d xs ds hxd htail ih =>
      have hF : flatten ds xs < ds.prod := flatten_lt htail
      have hP : 0 < ds.prod := by omega
      show (x * ds.prod + flatten ds xs) / ds.prod ::
          unflatten ds ((x * ds.prod + flatten ds xs) % ds.prod) = x :: xs
      have hdiv : (x * ds.prod + flatten ds xs) / ds.prod = x := by
        rw [Nat.mul_comm x ds.prod, Nat.mul_add_div hP, Nat.div_eq_of_lt hF,
          Nat.add_zero]
      have hmod : (x * ds.prod + flatten ds xs) % ds.prod = flatten ds xs := by
        rw [Nat.mul_comm x ds.prod, Nat.mul_add_mod, Nat.mod_eq_of_lt hF]
      rw [hdiv, hmod, ih]

theorem swapPerm_length (k : Nat) : (swapPerm k).length = k := by
  simp [swapPerm]

theorem swapPerm_succ (k : Nat) : swapPerm (k + 1) = (k + 1) :: swapPerm k := by
  have h : 1 + 1 * k = k + 1 := by omega
  simp only [swapPerm, List.range'_concat, List.reverse_append,
    List.reverse_singleton, List.singleton_append, h]

theorem digitPos_swapPerm (k s : Nat) (h : s < k) :
    digitPos (swapPerm k) (s + 1) = k - 1 - s := by
  induction k with
  | zero => omega
  | succ k ih =>
      rw [swapPerm_succ]
      by_cases hs : s = k
      · subst hs
        simp [digitPos]
      · have hs' : s < k := by omega
        have hne : ¬ (k + 1 = s + 1) := by omega
        simp only [digitPos, if_neg hne, ih hs']
        omega

theorem permDims_swapPerm (dims : List Nat) :
    permDims dims (swapPerm dims.length) = dims.reverse := by
  apply List.ext_getElem
  · simp [permDims, swapPerm]
  · intro n h₁ h₂
    simp only [permDims, List.getElem_map] at h₁ ⊢
    have hn : n < dims.length := by
      simpa [swapPerm] using h₁
    have hb : n < (swapPerm dims.length).length := by
      simpa [swapPerm] using hn
    have hrev : (swapPerm dims.length)[n] = dims.length - n := by
      simp only [swapPerm, List.getElem_reverse, List.getElem_range']
      simp [swapPerm]
      omega
    rw [hrev, List.getElem_reverse]
    rw [List.getD_eq_getElem dims 0 (by omega)]
    congr 1
    omega

theorem gatherDigits_swapPerm (k : Nat) (y : List Nat) (hy : y.length = k) :
    gatherDigits (swapPerm k) k y = y.reverse := by
  apply List.ext_getElem
  · simp [gatherDigits, hy]
  · intro n h₁ h₂
    simp only [gatherDigits, List.getElem_map, List.getElem_range] at h₁ ⊢
    have hn : n < k := by simpa [gatherDigits] using h₁
    rw [digitPos_swapPerm k n hn, List.getElem_reverse]
    rw [List.getD_eq_getElem y 0 (by omega)]
    congr 1
    omega

theorem permLookup_swapPerm (dims : List Nat) (i : Nat) :
    permLookup dims (swapPerm dims.length) i =
      flatten dims ((unflatten dims.reverse i).reverse) := by
  unfold permLookup
  rw [permDims_swapPerm, gatherDigits_swapPerm dims.length _
    (by rw [unflatten_length, List.length_reverse])]

theorem permLookup_swapPerm_invol (dims : List Nat) (hpal : dims.reverse = dims)
    (i : Nat) (hi : i < dims.prod) :
    permLookup dims (swapPerm dims.length)
      (permLookup dims (swapPerm dims.length) i) = i := by
  rw [permLookup_swapPerm, permLookup_swapPerm, hpal]
  have hy : List.Forall₂ (· < ·) (unflatten dims i) dims := unflatten_lt dims i hi
  have hyrev : List.Forall₂ (· < ·) (unflatten dims i).reverse dims := by
    have := List.forall₂_reverse_iff.mpr hy
    rwa [hpal] at this
  rw [unflatten_flatten hyrev, List.reverse_reverse, flatten_unflatten dims i hi]

theorem isValidPerm_swapPerm (k : Nat) : isValidPerm (swapPerm k) k = true := by
  simp only [isValidPerm, swapPerm_length, beq_self_eq_true, Bool.true_and,
    List.all_eq_true]
  intro s hs
  simp only [List.contains_eq_any_beq, List.any_eq_true]
  exact ⟨s, by simpa [swapPerm, List.mem_range'_1] using hs, by simp⟩

theorem swap_ok {α : Type} (m : Nat → Nat → α) (shape : Shape) (sys : List Int)
    (dim : DimArg) (ro : Bool) (rd cd : List Nat) (k : Nat)
    (hdims : swapDims shape dim = .ok (rd, cd, k))
    (h1 : sysCheckErr sys k = false) (h2 : sys.length = 2)
    (hr : rd.prod = (rhoDims shape).1) (hc : cd.prod = (rhoDims shape).2)
    (hkr : rd.length = k) (hkc : cd.length = k) :
    swap m shape sys dim ro = .ok (fun i j =>
      m (permLookup rd (swapPerm k) i)
        (if ro then j else permLookup cd (swapPerm k) j)) := by
  simp only [swap, hdims]
  rw [if_neg (by simp [h1]), if_neg (by simp [h2])]
  unfold permute_systems
  rw [if_neg (by simp [hr, hc]),
    if_neg (by simp [hkr, hkc, isValidPerm_swapPerm])]

theorem sqrtLin_le (n : Nat) : sqrtLin n * sqrtLin n ≤ n := by
  induction n with
  | zero => simp [sqrtLin]
  | succ n ih =>
      simp only [sqrtLin]
      split
      · omega
      · omega

theorem lt_sqrtLin_succ (n : Nat) :
    n < (sqrtLin n + 1) * (sqrtLin n + 1) := by
  induction n with
  | zero => simp [sqrtLin]
  | succ n ih =>
      simp only [sqrtLin]
      split
      · nlinarith [ih]
      · omega

theorem sqrtLin_mul_self (k : Nat) : sqrtLin (k * k) = k := by
  have h1 := sqrtLin_le (k * k)
  have h2 := lt_sqrtLin_succ (k * k)
  set s := sqrtLin (k * k) with hs
  have hsk : s ≤ k := by nlinarith
  have hks : k ≤ s := by nlinarith
  omega

theorem roundSqrt_mul_self_iff (n : Nat) :
    roundSqrt n * roundSqrt n = n ↔ IsSquare n := by
  constructor
  · intro h
    exact ⟨roundSqrt n, h.symm⟩
  · rintro ⟨k, rfl⟩
    have hs : sqrtLin (k * k) = k := sqrtLin_mul_self k
    have hcond : ¬ (k * k + (k + 1) * (k + 1) ≤ 2 * (k * k)) := by nlinarith
    simp [roundSqrt, hs, hcond]

theorem dist_round_ge (r d : Nat) (hd : 0 < d) (hdiv : ¬ (d ∣ r)) :
    (1 : ℚ) / d ≤ |(r : ℚ) / d - (round ((r : ℚ) / d) : ℤ)| := by
  set z : ℤ := round ((r : ℚ) / d) with hz
  have hd0 : (d : ℚ) ≠ 0 := by positivity
  have hnum : (r : ℤ) - z * d ≠ 0 := by
    intro h0
    apply hdiv
    have hzd : (d : ℤ) ∣ (r : ℤ) := ⟨z, by linarith [mul_comm z (d : ℤ)]⟩
    exact_mod_cast hzd
  have habs : (1 : ℚ) ≤ |(((r : ℤ) - z * d : ℤ) : ℚ)| := by
    rw [← Int.cast_abs]
    exact_mod_cast Int.one_le_abs hnum
  have heq : (r : ℚ) / d - (z : ℚ) = (((r : ℤ) - z * d : ℤ) : ℚ) / d := by
    push_cast
    field_simp
    ring
  rw [heq, abs_div, abs_of_pos (by positivity : (0 : ℚ) < (d : ℚ))]
  exact div_le_div_of_nonneg_right habs (by positivity)

theorem natToBits_length (n i : Nat) : (natToBits n i).length = n := by
  induction n generalizing i with
  | zero => rfl
  | succ n ih => simp [natToBits, ih]

theorem binaryStrings_eq (n : Nat) :
    binaryStrings n = (List.range (2 ^ n)).map (natToBits n) := by
  induction n with
  | zero => rfl
  | succ n ih =>
      have hsplit : (2 : Nat) ^ (n + 1) = 2 ^ n + 2 ^ n := by
        rw [pow_succ]; omega
      simp only [binaryStrings]
      rw [ih, hsplit, List.range_add, List.map_append, List.map_map,
        List.map_map, List.map_map]
      congr 1
      · apply List.map_congr_left
        intro i hi
        have hi' : i < 2 ^ n := List.mem_range.mp hi
        simp only [Function.comp_apply, natToBits]
        rw [Nat.div_eq_of_lt hi', Nat.mod_eq_of_lt hi']
      · apply List.map_congr_left
        intro i hi
        have hi' : i < 2 ^ n := List.mem_range.mp hi
        have hpos : 0 < 2 ^ n := Nat.pos_pow_of_pos n (by omega)
        simp only [Function.comp_apply, natToBits]
        have hdiv : (2 ^ n + i) / 2 ^ n = 1 := by
          rw [Nat.add_comm, Nat.add_div_right _ hpos, Nat.div_eq_of_lt hi']
        have hmod : (2 ^ n + i) % 2 ^ n = i := by
          rw [Nat.add_comm, Nat.add_mod_right, Nat.mod_eq_of_lt hi']
        rw [hdiv, hmod]

theorem kron_length {α : Type} [Mul α] (v w : List α) :
    (kron v w).length = v.length * w.length := by
  induction v with
  | nil => simp [kron]
  | cons x v ih =>
      simp only [kron, List.flatMap_cons, List.length_append, List.length_map,
        List.length_cons] at ih ⊢
      rw [ih]
      ring

theorem foldl_kron_length {α : Type} [Mul α] (vs : List (List α))
    (acc : List α) (h : ∀ v ∈ vs, v.length = 2) :
    (vs.foldl kron acc).length = acc.length * 2 ^ vs.length := by
  induction vs generalizing acc with
  | nil => simp
  | cons w vs ih =>
      have hw : w.length = 2 := h w (by simp)
      have htail : ∀ v ∈ vs, v.length = 2 := fun v hv => h v (by simp [hv])
      simp only [List.foldl_cons, List.length_cons]
      rw [ih _ htail, kron_length, hw]
      ring

theorem tensorL_length {α : Type} [Mul α] [One α] (L : List (List α))
    (h : ∀ v ∈ L, v.length = 2) : (tensorL L).length = 2 ^ L.length := by
  cases L with
  | nil => rfl
  | cons v vs =>
      have hv : v.length = 2 := h v (by simp)
      have htail : ∀ w ∈ vs, w.length = 2 := fun w hw => h w (by simp [hw])
      show (vs.foldl kron v).length = 2 ^ (v :: vs).length
      rw [foldl_kron_length vs v htail, hv, List.length_cons]
      ring

theorem sqrtQ_four : sqrtQ 4 = 2 := by
  rw [sqrtQ, show (4 : ℚ).num.toNat = 4 from rfl, show (4 : ℚ).den = 1 from rfl,
    show sqrtLin 4 = 2 from rfl, show sqrtLin 1 = 1 from rfl]
  norm_num

theorem eig_matA : eigvalsh matA = [0, 2] := by
  have hentry00 : matA.entry 0 0 = 1 := rfl
  have hentry01 : matA.entry 0 1 = -1 := rfl
  have hentry11 : matA.entry 1 1 = 1 := rfl
  have hshape : (matA.rows = 2 ∧ matA.cols = 2) := by constructor <;> rfl
  rw [eigvalsh, if_pos hshape, hentry00, hentry01, hentry11]
  show [((1 : ℚ) + 1 - sqrtQ (((1 : ℚ) - 1) ^ 2 + 4 * (-1 : ℚ) ^ 2)) / 2,
      ((1 : ℚ) + 1 + sqrtQ (((1 : ℚ) - 1) ^ 2 + 4 * (-1 : ℚ) ^ 2)) / 2] = [0, 2]
  rw [show ((1 : ℚ) - 1) ^ 2 + 4 * (-1 : ℚ) ^ 2 = 4 by norm_num, sqrtQ_four]
  norm_num

theorem eig_matB : eigvalsh matB = [-2, 0] := by
  have hentry00 : matB.entry 0 0 = -1 := rfl
  have hentry01 : matB.entry 0 1 = -1 := rfl
  have hentry11 : matB.entry 1 1 = -1 := rfl
  have hshape : (matB.rows = 2 ∧ matB.cols = 2) := by constructor <;> rfl
  rw [eigvalsh, if_pos hshape, hentry00, hentry01, hentry11]
  show [((-1 : ℚ) + -1 - sqrtQ (((-1 : ℚ) - -1) ^ 2 + 4 * (-1 : ℚ) ^ 2)) / 2,
      ((-1 : ℚ) + -1 + sqrtQ (((-1 : ℚ) - -1) ^ 2 + 4 * (-1 : ℚ) ^ 2)) / 2] = [-2, 0]
  rw [show ((-1 : ℚ) - -1) ^ 2 + 4 * (-1 : ℚ) ^ 2 = 4 by norm_num, sqrtQ_four]
  norm_num

/-- C6: for every non-square matrix input, `is_psd` returns `False` (and,
being a total function in this embedding, raises nothing). -/
theorem is_psd_nonsquare_false (m : QMat) (tol : ℚ) (h : m.rows ≠ m.cols) :
    is_psd m tol = false := by
  have hsq : is_square m = false := by
    simp [is_square, h]
  simp [is_psd, hsq]

/-- Witness for C6 at the concrete 2×3 zero matrix and the default
tolerance. -/
theorem is_psd_nonsquare_false_witness :
    is_psd ⟨2, 3, fun _ _ => 0⟩ (1 / 10 ^ 8) = false :=
  is_psd_nonsquare_false ⟨2, 3, fun _ _ => 0⟩ (1 / 10 ^ 8) (by decide)

/-- C7: at any positive tolerance up to 1 (which covers the default
`1e-8`), `is_psd` accepts `A = [[1,-1],[-1,1]]` (smallest eigenvalue
exactly 0) and rejects `B = [[-1,-1],[-1,-1]]`. -/
theorem is_psd_boundary (tol : ℚ) (h1 : 0 < tol) (h2 : tol ≤ 1) :
    is_psd matA tol = true ∧ is_psd matB tol = false := by
  constructor
  · rw [is_psd, if_neg (by decide), eig_matA]
    have ha : (-tol < (0 : ℚ)) := by linarith
    have hb : (-tol < (2 : ℚ)) := by linarith
    simp [ha, hb]
  · rw [is_psd, if_neg (by decide), eig_matB]
    have ha : ¬ (-tol < (-2 : ℚ)) := by linarith
    simp [ha]

/-- Witness for C7 at the default tolerance `1e-8`. -/
theorem is_psd_boundary_witness :
    is_psd matA (1 / 10 ^ 8) = true ∧ is_psd matB (1 / 10 ^ 8) = false :=
  is_psd_boundary (1 / 10 ^ 8) (by norm_num) (by norm_num)

/-- C1: evaluated at the failing input (three subsystems `dims = [2,2,2]`,
selector `sys = [1,2]`), the permutation `swap` hands to the permutation
engine is the full reversal `[3, 2, 1]` of all subsystem slots, not the
transposition `[2, 1, 3]` of the two selected slots that the claim (and the
function's own docstring) describe. -/
theorem swap_perm_reversal_not_transposition :
    swapPerm 3 = [3, 2, 1] ∧ transpositionPerm 1 2 3 = [2, 1, 3] ∧
      swapPerm 3 ≠ transpositionPerm 1 2 3 := by
  decide

/-- C2: with two subsystems, the out-of-range selector `sys = [3, 4]` passes
both selector checks (`sysCheckErr` is `false` on it) and `swap` returns a
permuted operand instead of failing: the source's `any(sys) < 1 or
any(sys) > num_sys` compares the boolean `any(sys)` with integers and never
fires on nonzero entries. -/
theorem swap_accepts_out_of_range_selector :
    sysCheckErr [3, 4] 2 = false ∧
      exceptOk (swap (fun i j => (4 * i + j : ℤ)) (.mat 4 4) [3, 4]
        .noDim false) = true := by
  decide

/-- C8 (amended): for every operand and every dims argument whose
resolution succeeds, a one-element selector fails with the `InvalidSys`
error (`InvalidSubsystemSelectorError`), whatever the operand and the
`row_only` flag: if the single entry is nonzero the length check fires, and
if it is zero the first check fires — both raise `InvalidSys`.  (The
counterexample shows the unrestricted claim is false: a malformed dims
argument errors out before the selector checks run.) -/
theorem swap_rejects_single_selector {α : Type} (m : Nat → Nat → α)
    (shape : Shape) (sys : List Int) (dim : DimArg) (ro : Bool)
    (rd cd : List Nat) (k : Nat)
    (hdims : swapDims shape dim = .ok (rd, cd, k)) (hlen : sys.length = 1) :
    swap m shape sys dim ro = .error .invalidSys := by
  simp only [swap, hdims]
  by_cases hchk : sysCheckErr sys k = true
  · rw [if_pos hchk]
  · rw [if_neg hchk, if_pos (by omega)]

/-- Witness for C8: `sys = [1]` on a 4×4 operand with default dims. -/
theorem swap_rejects_single_selector_witness :
    swap (fun i j => (i + j : ℤ)) (.mat 4 4) [1] .noDim false =
      .error .invalidSys :=
  swap_rejects_single_selector (fun i j => (i + j : ℤ)) (.mat 4 4) [1] .noDim
    false [2, 2] [2, 2] 2 rfl rfl

/-- C9: the result of `swap` does not depend on which subsystems the
selector names — any two selectors that pass the validation produce the
same output, because the permutation actually applied is always the full
reversal and `sys` is never consulted again. -/
theorem swap_result_ignores_selector {α : Type} (m : Nat → Nat → α)
    (shape : Shape) (dim : DimArg) (ro : Bool) (sys1 sys2 : List Int)
    (rd cd : List Nat) (k : Nat)
    (hdims : swapDims shape dim = .ok (rd, cd, k))
    (h1 : sysCheckErr sys1 k = false) (h2 : sys1.length = 2)
    (h3 : sysCheckErr sys2 k = false) (h4 : sys2.length = 2) :
    swap m shape sys1 dim ro = swap m shape sys2 dim ro := by
  simp only [swap, hdims]
  rw [if_neg (by simp [h1]), if_neg (by simp [h2]), if_neg (by simp [h3]),
    if_neg (by simp [h4])]

/-- Witness for C9: on a 4×4 operand with default dims, the in-range
selector `[1, 2]` and the out-of-range selector `[3, 4]` produce the same
result. -/
theorem swap_result_ignores_selector_witness :
    swap (fun i j => (5 * i + j : ℤ)) (.mat 4 4) [1, 2] .noDim false =
      swap (fun i j => (5 * i + j : ℤ)) (.mat 4 4) [3, 4] .noDim false :=
  swap_result_ignores_selector (fun i j => (5 * i + j : ℤ)) (.mat 4 4) .noDim
    false [1, 2] [3, 4] [2, 2] [2, 2] 2 rfl rfl rfl rfl rfl

/-- C3: with `dims` omitted, `swap` on an `n × n'` operand defaults to two
subsystems of dimension `round (sqrt n)` per axis, and the call fails with
the engine's dimension error exactly when a side is not a perfect square
(the rounded default then fails to account for the operand's size); in
particular a 3×3 operand with omitted dims errors rather than proceeding
with rounded dimensions. -/
theorem swap_default_dims_square_iff {α : Type} (m : Nat → Nat → α)
    (r c : Nat) (ro : Bool) :
    swap m (.mat r c) [1, 2] .noDim ro = .error .dimMismatch ↔
      ¬ (IsSquare r ∧ IsSquare c) := by
  have hdims : swapDims (.mat r c) .noDim =
      .ok ([roundSqrt r, roundSqrt r], [roundSqrt c, roundSqrt c], 2) := rfl
  simp only [swap, hdims]
  rw [if_neg (by decide), if_neg (by decide)]
  simp only [permute_systems]
  have hprod_r : [roundSqrt r, roundSqrt r].prod = roundSqrt r * roundSqrt r := by
    simp
  have hprod_c : [roundSqrt c, roundSqrt c].prod = roundSqrt c * roundSqrt c := by
    simp
  by_cases hsq : IsSquare r ∧ IsSquare c
  · have h1 : roundSqrt r * roundSqrt r = r := (roundSqrt_mul_self_iff r).mpr hsq.1
    have h2 : roundSqrt c * roundSqrt c = c := (roundSqrt_mul_self_iff c).mpr hsq.2
    rw [if_neg (by simp [hprod_r, hprod_c, h1, h2, rhoDims])]
    rw [if_neg (by
      simp only [not_not]
      constructor
      · exact (by simpa using isValidPerm_swapPerm 2)
      · exact (by simpa using isValidPerm_swapPerm 2))]
    simp [hsq]
  · have hbad : [roundSqrt r, roundSqrt r].prod ≠ (rhoDims (.mat r c)).1 ∨
        [roundSqrt c, roundSqrt c].prod ≠ (rhoDims (.mat r c)).2 := by
      rcases not_and_or.mp hsq with h | h
      · left
        rw [hprod_r]
        show roundSqrt r * roundSqrt r ≠ r
        intro heq
        exact h ((roundSqrt_mul_self_iff r).mp heq)
      · right
        rw [hprod_c]
        show roundSqrt c * roundSqrt c ≠ c
        intro heq
        exact h ((roundSqrt_mul_self_iff c).mp heq)
    rw [if_pos hbad]
    simp [hsq]

theorem swapDims_intDim_error (r c d : Nat) (hd : 0 < d)
    (hdiv : ¬ (d ∣ r) ∨ ¬ (d ∣ c)) (hsize : r * c * d ≤ 2 ^ 51) :
    swapDims (.mat r c) (.intDim d) = .error .invalidDim := by
  have hd' : (0 : ℚ) < (d : ℚ) := by positivity
  have htol : 2 * (((r * c : Nat)) : ℚ) * eps ≤ 1 / (d : ℚ) := by
    have hrw : 2 * (((r * c : Nat)) : ℚ) * eps = ((r * c : Nat) : ℚ) / 2 ^ 51 := by
      rw [eps]; push_cast; ring
    rw [hrw, div_le_div_iff₀ (by norm_num) hd']
    have hcast : ((r * c * d : Nat) : ℚ) ≤ ((2 ^ 51 : Nat) : ℚ) :=
      (Nat.cast_le (α := ℚ)).mpr hsize
    push_cast at hcast ⊢
    linarith
  have hcond : |(r : ℚ) / (d : ℚ) - (round ((r : ℚ) / (d : ℚ)) : ℤ)| +
      |(c : ℚ) / (d : ℚ) - (round ((c : ℚ) / (d : ℚ)) : ℤ)| ≥
      2 * (((r * c : Nat)) : ℚ) * eps := by
    rcases hdiv with h | h
    · have hge := dist_round_ge r d hd h
      have h0 : (0 : ℚ) ≤ |(c : ℚ) / (d : ℚ) - (round ((c : ℚ) / (d : ℚ)) : ℤ)| :=
        abs_nonneg _
      have hdi : (1 : ℚ) / (d : ℚ) ≤
          |(r : ℚ) / (d : ℚ) - (round ((r : ℚ) / (d : ℚ)) : ℤ)| := hge
      linarith
    · have hge := dist_round_ge c d hd h
      have h0 : (0 : ℚ) ≤ |(r : ℚ) / (d : ℚ) - (round ((r : ℚ) / (d : ℚ)) : ℤ)| :=
        abs_nonneg _
      linarith
  simp only [swapDims, rhoDims]
  rw [if_neg (by omega), if_pos hcond]

/-- C4: a single-integer `dims = d` that fails to divide the row count or
the column count evenly makes `swap` fail with the `InvalidDim` error, for
every operand whose total size (times `d`) stays below the scale `2⁵¹` at
which the epsilon tolerance could absorb a genuine remainder; in particular
a 3×3 operand with `dims = 2` errors. -/
theorem swap_int_dim_nondivisible {α : Type} (m : Nat → Nat → α)
    (r c d : Nat) (sys : List Int) (ro : Bool) (hd : 0 < d)
    (hdiv : ¬ (d ∣ r) ∨ ¬ (d ∣ c)) (hsize : r * c * d ≤ 2 ^ 51) :
    swap m (.mat r c) sys (.intDim d) ro = .error .invalidDim := by
  simp [swap, swapDims_intDim_error r c d hd hdiv hsize]

/-- Witness for C4: a 3×3 operand with `dims = 2` fails with the
`InvalidDim` error. -/
theorem swap_int_dim_nondivisible_witness :
    swap (fun i j => (3 * i + j : ℤ)) (.mat 3 3) [1, 2] (.intDim 2) false =
      .error .invalidDim :=
  swap_int_dim_nondivisible (fun i j => (3 * i + j : ℤ)) 3 3 2 [1, 2] false
    (by decide) (Or.inl (by decide)) (by norm_num)

/-- C8 (counterexample): a one-element selector does not always produce the
`InvalidSys` error — on a 3×3 operand with `dims = 2` and `sys = [1]`, the
integer-dims divisibility check runs before the selector checks and the
call fails with the `InvalidDim` error instead. -/
theorem swap_single_selector_dim_error_first :
    swap (fun i j => (3 * i + j : ℤ)) (.mat 3 3) [1] (.intDim 2) false =
      .error .invalidDim ∧ SwapError.invalidDim ≠ SwapError.invalidSys := by
  constructor
  · have h := swapDims_intDim_error 3 3 2 (by decide) (Or.inl (by decide))
      (by norm_num)
    simp [swap, h]
  · decide

/-- C5 (counterexample): on a 6×6 operand with subsystem dimensions
`[2, 3]`, applying `swap` twice with the same selector and dimensions does
not return the original operand: entry `(1, 0)` of the double swap is `28`
while the original entry is `7`. -/
theorem swap_involution_fails_dims_2_3 :
    entryOr (swapTwice (fun i j => (7 * i + j : ℤ)) (.mat 6 6) [1, 2]
        (.listDim [2, 3]) false) 0 1 0 = 28 ∧
      (7 : ℤ) * 1 + 0 = 7 ∧ (28 : ℤ) ≠ 7 := by
  decide

/-- C5 (amended): applying `swap` twice with the same selector and
dimensions returns the original operand exactly whenever the resolved row
and column dimension lists are palindromes (in particular for the default
dims, whose two subsystems have equal dimension); the counterexample shows
this fails for non-palindromic dims such as `[2, 3]`. -/
theorem swap_involution_palindrome {α : Type} (m : Nat → Nat → α)
    (shape : Shape) (sys : List Int) (dim : DimArg) (rd cd : List Nat)
    (k : Nat) (hdims : swapDims shape dim = .ok (rd, cd, k))
    (h1 : sysCheckErr sys k = false) (h2 : sys.length = 2)
    (hr : rd.prod = (rhoDims shape).1) (hc : cd.prod = (rhoDims shape).2)
    (hkr : rd.length = k) (hkc : cd.length = k)
    (hpr : rd.reverse = rd) (hpc : cd.reverse = cd) :
    ∃ m₂, swapTwice m shape sys dim false = .ok m₂ ∧
      ∀ i j, i < (rhoDims shape).1 → j < (rhoDims shape).2 → m₂ i j = m i j := by
  subst hkr
  have e1raw := swap_ok m shape sys dim false rd cd rd.length hdims h1 h2 hr hc
    rfl hkc
  have e1 : swap m shape sys dim false = .ok (fun i j =>
      m (permLookup rd (swapPerm rd.length) i)
        (permLookup cd (swapPerm rd.length) j)) := by
    rw [e1raw]
    refine congrArg Except.ok ?_
    funext i j
    simp
  set f1 : Nat → Nat → α := fun i j =>
    m (permLookup rd (swapPerm rd.length) i)
      (permLookup cd (swapPerm rd.length) j) with hf1
  have e2raw := swap_ok f1 shape sys dim false rd cd rd.length hdims h1 h2 hr hc
    rfl hkc
  have e2 : swap f1 shape sys dim false = .ok (fun i j =>
      f1 (permLookup rd (swapPerm rd.length) i)
        (permLookup cd (swapPerm rd.length) j)) := by
    rw [e2raw]
    refine congrArg Except.ok ?_
    funext i j
    simp
  refine ⟨fun i j =>
      f1 (permLookup rd (swapPerm rd.length) i)
        (permLookup cd (swapPerm rd.length) j), ?_, ?_⟩
  · simp only [swapTwice, e1, e2]
  · intro i j hi hj
    have hi' : i < rd.prod := by rw [hr]; exact hi
    have hj' : j < cd.prod := by rw [hc]; exact hj
    have hrowinv : permLookup rd (swapPerm rd.length)
        (permLookup rd (swapPerm rd.length) i) = i :=
      permLookup_swapPerm_invol rd hpr i hi'
    have hcolinv : permLookup cd (swapPerm rd.length)
        (permLookup cd (swapPerm rd.length) j) = j := by
      rw [← hkc]
      exact permLookup_swapPerm_invol cd hpc j hj'
    show f1 (permLookup rd (swapPerm rd.length) i)
        (permLookup cd (swapPerm rd.length) j) = m i j
    rw [hf1]
    simp only []
    rw [hrowinv, hcolinv]

/-- Witness for C5 (amended) on a 4×4 operand with the default dims,
whose resolved dimension lists `[2, 2]` are palindromic. -/
theorem swap_involution_palindrome_witness :
    ∃ m₂, swapTwice (fun i j => (10 * i + j : ℤ)) (.mat 4 4) [1, 2]
        .noDim false = .ok m₂ ∧
      ∀ i j, i < (rhoDims (.mat 4 4)).1 → j < (rhoDims (.mat 4 4)).2 →
        m₂ i j = (fun i j => (10 * i + j : ℤ)) i j :=
  swap_involution_palindrome (fun i j => (10 * i + j : ℤ)) (.mat 4 4) [1, 2]
    .noDim [2, 2] [2, 2] 2 rfl rfl rfl rfl rfl rfl rfl rfl rfl

/-- C10: for `n ≥ 1` (with `c`, `s` standing for `cos (θ/2)`, `sin (θ/2)`),
`pusey_barret_rudolph` returns exactly `2 ^ n` states; the `i`-th state is
the `n`-fold tensor product `ψ_{b₁} ⊗ ⋯ ⊗ ψ_{bₙ}` where `(b₁, …, bₙ)` is
the `i`-th binary string of length `n` in lexicographic order,
`ψ₀ = [c, s]` and `ψ₁ = [c, -s]`; and every returned state is a vector of
dimension `2 ^ n`. -/
theorem pusey_barret_rudolph_spec {α : Type} [Ring α] (n : Nat) (_hn : 1 ≤ n)
    (c s : α) :
    (pusey_barret_rudolph n c s).length = 2 ^ n ∧
      ∀ i, i < 2 ^ n →
        (pusey_barret_rudolph n c s).getD i [] =
          tensorL ((natToBits n i).map
            (fun b => if b = 0 then [c, s] else [c, -s])) ∧
        ((pusey_barret_rudolph n c s).getD i []).length = 2 ^ n := by
  have hrep : pusey_barret_rudolph n c s =
      (List.range (2 ^ n)).map (fun i => tensorL ((natToBits n i).map
        (fun b => if b = 0 then [c, s] else [c, -s]))) := by
    rw [pusey_barret_rudolph, binaryStrings_eq, List.map_map]
    rfl
  have hlen : (pusey_barret_rudolph n c s).length = 2 ^ n := by
    rw [hrep, List.length_map, List.length_range]
  refine ⟨hlen, ?_⟩
  intro i hi
  have hget : (pusey_barret_rudolph n c s).getD i [] =
      tensorL ((natToBits n i).map
        (fun b => if b = 0 then [c, s] else [c, -s])) := by
    rw [hrep, List.getD_eq_getElem _ _ (by simpa using hi), List.getElem_map]
    congr 1
    rw [List.getElem_range]
  refine ⟨hget, ?_⟩
  rw [hget, tensorL_length]
  · rw [List.length_map, natToBits_length]
  · intro v hv
    simp only [List.mem_map] at hv
    obtain ⟨b, _, rfl⟩ := hv
    by_cases hb : b = 0 <;> simp [hb]

/-- Witness for C10 at `n = 1` over the integers with `c = 5`, `s = 7`. -/
theorem pusey_barret_rudolph_spec_witness :
    (pusey_barret_rudolph 1 (5 : ℤ) 7).length = 2 ^ 1 ∧
      ∀ i, i < 2 ^ 1 →
        (pusey_barret_rudolph 1 (5 : ℤ) 7).getD i [] =
          tensorL ((natToBits 1 i).map
            (fun b => if b = 0 then [(5 : ℤ), 7] else [5, -7])) ∧
        ((pusey_barret_rudolph 1 (5 : ℤ) 7).getD i []).length = 2 ^ 1 :=
  pusey_barret_rudolph_spec 1 (by decide) 5 7
